import Mathlib

/-!
# Verification of the `fossas/foundation-libs` scanning pipeline

A shallow embedding, in Lean 4, of the parts of the repository that the
frozen claims are about:

* the content fingerprinter (`fingerprint/src/fingerprint.rs`): binary
  detection, CRLF normalisation, and C-style comment stripping;
* the upload consumer of the VSI scanner (`vsi/src/scan.rs`): batching of
  artifacts into chunks of `ARTIFACT_BUFFER_LIMIT`;
* the scan orchestration and forensics polling loop (`vsi/src/lib.rs`,
  `vsi/src/forensics.rs`), modelled as event traces;
* the archive-expansion walker (`archive/src/expand/walk.rs`), the batch
  expansion guards (`archive/src/expand/all.rs`), and extension-based
  archive identification (`archive/src/strategy/libarchive.rs`).

Byte streams are modelled as `List Nat` (one byte per element); text is
modelled as `List Char` of the decoded lines; paths are modelled as lists of
components.  SHA-256 itself is not modelled: every claim about fingerprints
is a claim about the byte stream fed to the hash, so equality (inequality)
of fingerprints is established as equality (inequality) of the hashed
streams.
-/

set_option maxRecDepth 10000

namespace Foundation

/-! ## Fingerprinter: byte-stream normalisation (`fingerprint.rs`)

`fingerprint.rs` pipes text through `crlf_to_lf` (in the crate's `stream`
module, whose behaviour is documented on `hash_text`: "any `\r\n` byte
sequences found are converted to a single `\n`").
-/

/-- Modelled from the spec: the crate's `stream::ConvertCRLFToLF` adapter
(the `stream` module itself is not in the sources; `hash_text`'s
documentation and §4.1 of the spec describe it: "SHA-256 of the bytes with
every `\r\n` replaced by `\n`").  A single left-to-right pass replacing
each `\r\n` (13, 10) pair by `\n` (10). -/
def crlfToLf : List Nat → List Nat
  | [] => []
  | [b] => [b]
  | b :: c :: rest =>
    if b = 13 ∧ c = 10 then 10 :: crlfToLf rest
    else b :: crlfToLf (c :: rest)

/-- Rendering of an LF text under the CRLF convention: every `\n` becomes
`\r\n`.  This is the "same file checked out with different line endings"
transformation that `hash_text`'s documentation motivates. -/
def lfToCrlf : List Nat → List Nat
  | [] => []
  | b :: rest =>
    if b = 10 then 13 :: 10 :: lfToCrlf rest else b :: lfToCrlf rest

/-- `content_is_binary` of `fingerprint.rs`: a stream is binary iff a zero
byte occurs among its first 8000 bytes. -/
def isBinary (bytes : List Nat) : Bool :=
  (bytes.take 8000).any (· == 0)

/-- The byte stream that `raw` of `fingerprint.rs` feeds to SHA-256: the
exact bytes for a binary stream (`hash_binary`), the CRLF-normalised bytes
for a text stream (`hash_text`).  The `RawSHA256` fingerprint is the
SHA-256 digest of this stream. -/
def rawNormalized (bytes : List Nat) : List Nat :=
  if isBinary bytes then bytes else crlfToLf bytes

/-! ## Fingerprinter: comment stripping (`fingerprint.rs`)

`comment_strip` reads the stream with `BufReader::lines` (which splits at
`\n` and drops a preceding `\r`), so the model takes the decoded lines as
input.  `clean_line` is modelled on `List Char` with `String.find`-style
two-character pattern search.
-/

/-- Index of the first occurrence of the two-character pattern `a, b`
(`str::find` of a two-character pattern in `clean_line`). -/
def findPat (a b : Char) : List Char → Option Nat
  | [] => none
  | [_] => none
  | x :: y :: rest =>
    if x = a ∧ y = b then some 0 else (findPat a b (y :: rest)).map (· + 1)

/-- The recursion of `clean_line` of `fingerprint.rs`, with explicit fuel:
each recursive call strips at least two characters off the line, so
`line.length` fuel always suffices (`cleanLineAux_stable` below), and the
fuel-exhausted branch is unreachable from `cleanLine`.  The boolean is the
`is_multiline_active` flag.  Note the order of the tests in the
non-multiline branch: `/*` is searched for before `//`. -/
def cleanLineAux : Nat → List Char → Bool → List Char × Bool
  | 0, line, isMultilineActive => (line, isMultilineActive)
  | fuel + 1, line, isMultilineActive =>
    if isMultilineActive then
      match findPat '*' '/' line with
      | some e => cleanLineAux fuel (line.drop (e + 2)) false
      | none => ([], true)
    else
      match findPat '/' '*' line with
      | some s =>
        let res := cleanLineAux fuel (line.drop (s + 2)) true
        (line.take s ++ res.1, res.2)
      | none =>
        match findPat '/' '/' line with
        | some s => (line.take s, false)
        | none => (line, false)

/-- `clean_line` of `fingerprint.rs`. -/
def cleanLine (line : List Char) (isMultilineActive : Bool) : List Char × Bool :=
  cleanLineAux line.length line isMultilineActive

/-- ASCII approximation of Rust's `str::trim` (`char::is_whitespace`),
sufficient for source text: spaces, tabs, newlines, carriage returns,
vertical tabs and form feeds are trimmed from both ends. -/
def isWhite (c : Char) : Bool :=
  c = ' ' ∨ c = '\t' ∨ c = '\n' ∨ c = '\r' ∨ c = '\x0b' ∨ c = '\x0c'

/-- Both-ends trim used by `comment_strip` (`buffered_output_line.trim()`). -/
def trimChars (l : List Char) : List Char :=
  (l.dropWhile isWhite).reverse.dropWhile isWhite |>.reverse

/-- The loop of `comment_strip` of `fingerprint.rs`: `buf` is
`buffered_output_line`, `m` is `is_multiline_active`.  A buffered non-empty
line is written with a trailing newline before the next line is processed;
the final buffered line is written without a trailing newline. -/
def commentStripGo : List (List Char) → List Char → Bool → List Char
  | [], buf, _ => buf
  | l :: rest, buf, m =>
    let pre := if buf.isEmpty then [] else buf ++ ['\n']
    let res := cleanLine l m
    pre ++ commentStripGo rest (trimChars res.1) res.2

/-- `comment_strip` of `fingerprint.rs`, taking as input the decoded lines
of the stream (the output of `BufReader::lines`). -/
def commentStrip (lines : List (List Char)) : List Char :=
  commentStripGo lines [] false

/-! ## Upload consumer (`vsi/src/scan.rs`)

`upload` buffers artifacts received from the producer channel and flushes
the buffer to `Sink::append_scan` each time it reaches
`ARTIFACT_BUFFER_LIMIT`; when the channel closes, a non-empty remainder is
flushed in a final call.  The model is the success path: the list of
batches passed to `append_scan`, paired with the returned `uploaded`
count.  The model is polymorphic in the artifact type; in the code it is
`scan::Artifact`, a `(PathBuf, fingerprint::Combined)` pair, modelled by
`ArtifactM` below.
-/

/-- `ARTIFACT_BUFFER_LIMIT` of `vsi/src/scan.rs`. -/
def ARTIFACT_BUFFER_LIMIT : Nat := 1000

/-- An artifact: a logical path paired with its combined fingerprint
(both kept abstract as strings; the upload consumer never inspects them). -/
abbrev ArtifactM : Type := String × String

/-- The receive loop of `upload` of `vsi/src/scan.rs`: `buf` is the current
buffer, `uploaded` the running count.  Returns the batches passed to
`append_scan`, in call order, and the final `uploaded` count. -/
def uploadGo : List α → List α → Nat → List (List α) × Nat
  | [], buf, uploaded => (if buf.isEmpty then [] else [buf], uploaded)
  | a :: input, buf, uploaded =>
    let buf := buf ++ [a]
    let uploaded := uploaded + 1
    if buf.length == ARTIFACT_BUFFER_LIMIT then
      let rest := uploadGo input [] uploaded
      (buf :: rest.1, rest.2)
    else
      uploadGo input buf uploaded

/-- `upload` of `vsi/src/scan.rs` on the sequence of artifacts received
from the channel before it closed, assuming every `append_scan` call
succeeds: the batches appended, and the returned count. -/
def upload (input : List α) : List (List α) × Nat :=
  uploadGo input [] 0

/-! ## Forensics statuses and the wait loop (`vsi/src/forensics.rs`,
`vsi/src/lib.rs`)

`wait_forensics` polls `forensics_status` in a loop; the model turns one
run of the loop over a finite prefix of poll responses into a trace of
events: each poll, each 1-second sleep, each transition log, and the
loop's exit. -/

/-- `forensics::Status`. -/
inductive Status where
  | pending : Status
  | finished : Status
  | failed : Status
  | informational : String → Status
deriving DecidableEq, Repr

/-- `Status::parse` of `vsi/src/forensics.rs`. -/
def parseStatus (input : String) : Status :=
  if input = "NOT_STARTED" then .pending
  else if input = "DONE" then .finished
  else if input = "FAILED" then .failed
  else .informational input

/-- Events of one run of `wait_forensics`:  `polled s` is a completed call
to `forensics_status` returning `s`; `slept` is the 1-second `sleep`;
`logged s` is the `info!` transition log for `s`; `waitDone` is the `Ok`
return; `waitFailed` is the `bail!` on a failed status. -/
inductive WaitEv where
  | polled : Status → WaitEv
  | slept : WaitEv
  | logged : Status → WaitEv
  | waitDone : WaitEv
  | waitFailed : WaitEv
deriving DecidableEq, Repr

/-- The loop of `wait_forensics` of `vsi/src/lib.rs`, run over a finite
prefix `resps` of poll responses; `last` is `last_status`.  If the loop is
still running when `resps` is exhausted, the trace simply ends (the real
loop would poll again). -/
def waitAux (last : Option Status) : List Status → List WaitEv
  | [] => []
  | s :: rest =>
    if last = some s then .polled s :: .slept :: waitAux last rest
    else if s = .finished then [.polled s, .logged s, .waitDone]
    else if s = .failed then [.polled s, .waitFailed]
    else .polled s :: .logged s :: waitAux (some s) rest

/-- `wait_forensics` from its initial state (`last_status = None`). -/
def waitTrace (resps : List Status) : List WaitEv :=
  waitAux none resps

/-- The status of the most recent `polled` event in a trace fragment,
defaulting to `last` when the fragment contains no poll.  This is the
"previously observed" status at the end of the fragment. -/
def lastPollD (last : Option Status) (tr : List WaitEv) : Option Status :=
  tr.foldl (fun acc e => match e with | .polled s => some s | _ => acc) last

/-- Whether an event is a poll. -/
def isPoll : WaitEv → Bool
  | .polled _ => true
  | _ => false

/-! ## Full-run orchestration (`vsi/src/lib.rs`, `run`)

`run` awaits `create_scan`, then `scan::artifacts` (whose `try_join!`
completes only after the `upload` consumer — and therefore every
`append_scan` call — has returned), then `complete_scan`, then
`wait_forensics`.  The model is the trace of remote-service interactions of
a run in which each phase succeeds. -/

/-- Remote-service events of a full `run`. -/
inductive RunEv where
  | created : RunEv
  | appended : List ArtifactM → RunEv
  | completed : RunEv
  | polledStatus : Status → RunEv
deriving DecidableEq

/-- The trace of remote-service calls made by `run` of `vsi/src/lib.rs` on
a successful run: `create_scan`, then the `append_artifacts` batches of the
upload consumer, then `complete_scan`, then the polls of
`wait_forensics`. -/
def runTrace (arts : List ArtifactM) (resps : List Status) : List RunEv :=
  .created ::
    (upload arts).1.map .appended ++
      .completed ::
        (waitTrace resps).filterMap fun e =>
          match e with
          | .polled s => some (.polledStatus s)
          | _ => none

/-! ## Extension-based archive identification
(`archive/src/strategy/libarchive.rs`)

`ext_is_supported` matches the supported extension list as byte suffixes of
the file name (`str::ends_with`, case sensitive).  File names are modelled
as `List Char`. -/

/-- `SUPPORTED_EXTS` of `archive/src/strategy/libarchive.rs`. -/
def SUPPORTED_EXTS : List (List Char) :=
  [".zip".toList, ".tar".toList, ".tar.gz".toList, ".tar.xz".toList,
    ".tar.bz2".toList, ".rpm".toList]

/-- `ext_is_supported` of `archive/src/strategy/libarchive.rs`, on the
file name (`path.file_name()`): true iff the name ends with one of
`SUPPORTED_EXTS`. -/
def extIsSupported (fileName : List Char) : Bool :=
  SUPPORTED_EXTS.any fun ext => ext.isSuffixOf fileName

/-! ## Archive expansion walker (`archive/src/expand/walk.rs`)

The abstract file system: a tree of plain files, supported archives (whose
extracted contents are known to the model), and directories.  `WalkDir`
enumeration of a directory tree (`follow_links(false)`, files only,
directory-iteration order) is `filesOf`.

Logical paths are lists of components; each component records its name and
the number of times `logical_suffix` appended the archive postfix to it, so
that counting postfix occurrences in a path is counting those applications
(faithful to the rendered string whenever file names do not themselves
contain the postfix literal). -/

/-- A node of the abstract file system. -/
inductive FNode where
  | plain : String → FNode
  | archive : String → List FNode → FNode
  | dir : String → List FNode → FNode

mutual

/-- Size of a node, for fuel computations. -/
def nodeWeight : FNode → Nat
  | .plain _ => 1
  | .archive _ c => 1 + listWeight c
  | .dir _ c => 1 + listWeight c

/-- Size of a list of nodes. -/
def listWeight : List FNode → Nat
  | [] => 0
  | n :: rest => nodeWeight n + listWeight rest

end

/-- The files under a list of nodes, with their relative path components:
directories are descended (recursively, in order), archives and plain
files are yielded as files.  This is the `WalkDir` enumeration of one
`WalkTarget`, restricted to files. -/
def filesOf : List FNode → List (List String × FNode)
  | [] => []
  | .plain n :: rest => ([n], .plain n) :: filesOf rest
  | .archive n c :: rest => ([n], .archive n c) :: filesOf rest
  | .dir n c :: rest =>
    (filesOf c).map (fun pf => (n :: pf.1, pf.2)) ++ filesOf rest

/-- A logical-path component: its name and the number of archive-postfix
applications on it. -/
abbrev Seg : Type := String × Nat

/-- A logical path. -/
abbrev LPath : Type := List Seg

/-- `logical_suffix` of `walk_inner`: append the archive postfix to the
path (`OsString::push` onto the rendered path, i.e. onto its last
component; on the empty path it creates a single component). -/
def pfxApply : LPath → LPath
  | [] => [("", 1)]
  | [s] => [(s.1, s.2 + 1)]
  | s :: s2 :: rest => s :: pfxApply (s2 :: rest)

/-- Number of archive-postfix occurrences in a logical path. -/
def pfxCount (p : LPath) : Nat :=
  (p.map (·.2)).sum

/-- Plain components of a relative path (no postfix applications). -/
def plainSegs (rel : List String) : LPath :=
  rel.map fun n => (n, 0)

/-- Rendered components of a logical path: each component's name with the
postfix literal appended as many times as it was applied. -/
def renderSegs (pfx : String) (p : LPath) : List String :=
  p.map fun s => s.1 ++ String.join (List.replicate s.2 pfx)

/-- The `filter` option (`Filter` of `archive/src/lib.rs`): an allow list
and a block list of paths, each a list of components. -/
structure FilterM where
  inc : List (List String)
  exc : List (List String)
deriving DecidableEq, Repr

/-- `Filter::default()`: both sets empty. -/
def defaultFilter : FilterM := ⟨[], []⟩

/-- The `recursion` option (`Recursion` of `archive/src/lib.rs`). -/
inductive RecursionM where
  | enabled : Nat → RecursionM
  | disabled : RecursionM
deriving DecidableEq, Repr

/-- The walker options (`Options` of `archive/src/lib.rs`): recursion
mode, filters, and the archive postfix.  The `identification` field is
omitted: `MatchExtension` is its only variant. -/
structure OptionsM where
  recursion : RecursionM
  filter : FilterM
  pfx : String
deriving DecidableEq, Repr

/-- Default options: recursion enabled at depth 1000, default filter,
default postfix. -/
def defaultOptions : OptionsM :=
  ⟨.enabled 1000, defaultFilter, "!_fossa.virtual_!"⟩

/-- Modelled from the spec: `Filter::excludes` (declared by its use in
`walk_inner`; the method body is not in the sources).  §4.3: "If
`filter.exclude` prefix-matches the logical path, skip". -/
def FilterM.excludesP (f : FilterM) (pfx : String) (p : LPath) : Bool :=
  f.exc.any fun e => e.isPrefixOf (renderSegs pfx p)

/-- Modelled from the spec: `Filter::allows` (declared by its use in
`walk_inner`; the method body is not in the sources).  §4.3: when
`include` is non-empty, "an entry is emitted only if one of its ancestors'
logical paths is in `include`"; exclusion is checked separately. -/
def FilterM.allowsP (f : FilterM) (pfx : String) (p : LPath) : Bool :=
  f.inc.isEmpty || f.inc.any fun i => i.isPrefixOf (renderSegs pfx p)

/-- A `WalkTarget` of `walk_inner`: the logical parent (None for the
base target), the depth, and the file listing of its directory. -/
structure WTarget where
  parent : Option LPath
  depth : Nat
  files : List (List String × FNode)

/-- An item sent to the walker's channel: an `Entry` (its logical path),
or an `Err` (a `walkdir` iteration error, or an invariant violation —
which `walk_inner` never constructs). -/
inductive WOut where
  | entry : LPath → WOut
  | errWalk : WOut
  | errInvariant : WOut
deriving DecidableEq, Repr

/-- The logical path of the entry for a file at relative path `rel` inside
a target (`Entry::derived`: `parent.join(relative)` when the target has a
parent, the relative path itself otherwise). -/
def entryPath (parent : Option LPath) (rel : List String) : LPath :=
  (parent.getD []) ++ plainSegs rel

/-- The items one target's iteration sends, in directory order: an entry
for each file that passes the exclusion filter (checked before `process`)
and the allow filter (checked after `process`). -/
def stepEmits (opts : OptionsM) (t : WTarget) : List WOut :=
  t.files.filterMap fun pf =>
    if opts.filter.excludesP opts.pfx (entryPath t.parent pf.1) then none
    else if opts.filter.allowsP opts.pfx (entryPath t.parent pf.1) then
      some (.entry (entryPath t.parent pf.1))
    else none

/-- The targets one target's iteration enqueues (the `process` closure of
`walk_inner`), in directory order: one per supported archive that passes
the exclusion filter, provided recursion is enabled and
`depth + 1 ≤ max_depth`.  The new target's parent is the entry's logical
path with the postfix applied; note that the allow filter does not gate
enqueueing (it runs after `process`). -/
def stepTargets (opts : OptionsM) (t : WTarget) : List WTarget :=
  t.files.filterMap fun pf =>
    if opts.filter.excludesP opts.pfx (entryPath t.parent pf.1) then none
    else
      match opts.recursion with
      | .disabled => none
      | .enabled maxDepth =>
        match pf.2 with
        | .archive _ c =>
          if t.depth + 1 ≤ maxDepth then
            some ⟨some (pfxApply (entryPath t.parent pf.1)), t.depth + 1,
              filesOf c⟩
          else none
        | _ => none

/-- The BFS loop of `walk_inner`, with explicit fuel bounding the number
of targets processed: each popped target's items are sent, then its new
targets are appended to the back of the queue. -/
def walkQueueAux (opts : OptionsM) : Nat → List WTarget → List WOut
  | 0, _ => []
  | _ + 1, [] => []
  | fuel + 1, t :: rest =>
    stepEmits opts t ++ walkQueueAux opts fuel (rest ++ stepTargets opts t)

/-- Fuel weight of one target. -/
def tWeight (t : WTarget) : Nat :=
  1 + (t.files.map fun pf => nodeWeight pf.2).sum

/-- Fuel weight of a queue. -/
def qWeight (q : List WTarget) : Nat :=
  (q.map tWeight).sum

/-- The root of a walk, as `walk_inner` receives it: a directory, a single
file (plain or supported archive), a symbolic link, or a missing path. -/
inductive RootNode where
  | rootDir : List FNode → RootNode
  | rootFile : FNode → RootNode
  | rootSymlinkToFile : String → RootNode
  | rootSymlinkToDir : String → RootNode
  | rootMissing : RootNode

/-- The initial queue of `walk_inner` for a root.  `WalkDir` over a single
file (including a symlink to a file: the root is always yielded, and
`Path::is_file` follows links) yields just that file, at relative path
`""` (`strip_prefix` of the path against itself); a symlink to a
directory is dropped by the `is_file` filter; walking a missing root
yields one `walkdir` error, handled in `walkRoot` directly. -/
def rootQueue : RootNode → List WTarget
  | .rootDir c => [⟨none, 0, filesOf c⟩]
  | .rootFile f => [⟨none, 0, [([], f)]⟩]
  | .rootSymlinkToFile n => [⟨none, 0, [([], .plain n)]⟩]
  | .rootSymlinkToDir _ => [⟨none, 0, []⟩]
  | .rootMissing => []

/-- `walk_inner` of `archive/src/expand/walk.rs` on an abstract root: the
sequence of items sent to the channel (the iterator of `walk`).  The fuel
`qWeight` of the initial queue bounds the number of targets ever
processed, since each processed target costs at least one weight unit. -/
def walkRoot (root : RootNode) (opts : OptionsM) : List WOut :=
  match root with
  | .rootMissing => [.errWalk]
  | _ => walkQueueAux opts (qWeight (rootQueue root)) (rootQueue root)

/-! ## Batch expansion guards (`archive/src/expand/all.rs`)

`all` — unlike the iterator walker — validates its inputs before touching
the file system: a non-default `filter` is an invariant error, a symlink
root is an invariant error, and a root that is neither a directory nor a
file is an invariant error.  A file root that is not a supported archive
is *not* an error: its failed `strategies.expand` attempt is recorded as a
`NotSupported` warning. -/

/-- The `Invariant` error kinds of `archive/src/error.rs`. -/
inductive InvariantE where
  | walkable : InvariantE
  | targetSymlink : InvariantE
  | filtersUnsupported : InvariantE
deriving DecidableEq, Repr

/-- The validation prefix of `all` of `archive/src/expand/all.rs`: the
invariant error it returns before performing any expansion, if any.
Checks run in source order: non-default filter, then symlink root, then
the directory/file/neither branch. -/
def allGuard (root : RootNode) (opts : OptionsM) : Option InvariantE :=
  if opts.filter ≠ defaultFilter then some .filtersUnsupported
  else
    match root with
    | .rootSymlinkToFile _ => some .targetSymlink
    | .rootSymlinkToDir _ => some .targetSymlink
    | .rootDir _ => none
    | .rootFile _ => none
    | .rootMissing => some .walkable

/-! ## Theorems -/

/-- A found two-character pattern lies within the line. -/
theorem findPat_some_bound (a b : Char) (l : List Char) (i : Nat)
    (hi : findPat a b l = some i) : i + 2 ≤ l.length := by
  induction l generalizing i with
  | nil => simp [findPat] at hi
  | cons x tl ih =>
    cases tl with
    | nil => simp [findPat] at hi
    | cons y rest =>
      rw [findPat] at hi
      by_cases hxy : x = a ∧ y = b
      · simp [hxy] at hi
        simp [List.length_cons]
        omega
      · simp [hxy] at hi
        obtain ⟨j, hj, rfl⟩ := hi
        have := ih j hj
        simp only [List.length_cons] at this ⊢
        omega

/-- Any fuel at least `line.length` computes `clean_line` exactly: the
fuel-exhausted branch of `cleanLineAux` is unreachable. -/
theorem cleanLineAux_stable (fuel : Nat) (line : List Char) (m : Bool)
    (hf : line.length ≤ fuel) : cleanLineAux fuel line m = cleanLine line m := by
  induction fuel using Nat.strong_induction_on generalizing line m with
  | _ fuel ih =>
    cases fuel with
    | zero =>
      have : line = [] := List.length_eq_zero.mp (by omega)
      subst this
      cases m <;> rfl
    | succ f =>
      rw [cleanLine]
      cases hlen : line.length with
      | zero =>
        have : line = [] := List.length_eq_zero.mp hlen
        subst this
        cases m <;> rfl
      | succ n =>
        have hn : n < f + 1 := by omega
        have hfl : f < f + 1 := by omega
        rw [cleanLineAux, cleanLineAux]
        cases m with
        | true =>
          simp only [if_true]
          cases hp : findPat '*' '/' line with
          | none => rfl
          | some e =>
            have hb := findPat_some_bound '*' '/' line e hp
            dsimp only
            rw [ih f hfl _ _ (by simp [List.length_drop]; omega),
              ih n hn _ _ (by simp [List.length_drop]; omega)]
        | false =>
          simp only [Bool.false_eq_true, if_neg, not_false_iff]
          cases hp : findPat '/' '*' line with
          | none => rfl
          | some s =>
            have hb := findPat_some_bound '/' '*' line s hp
            dsimp only
            rw [ih f hfl _ _ (by simp [List.length_drop]; omega),
              ih n hn _ _ (by simp [List.length_drop]; omega)]

/-- Unfolding `crlfToLf` over a cons cell whose head is not the start of a
`\r\n` pair. -/
theorem crlfToLf_cons (b : Nat) (X : List Nat)
    (h : ¬(b = 13 ∧ X.head? = some 10)) :
    crlfToLf (b :: X) = b :: crlfToLf X := by
  cases X with
  | nil => rfl
  | cons c r =>
    rw [crlfToLf, if_neg]
    simpa using h

/-- A text already free of `\r\n` (a fixed point of the normalisation) is
recovered exactly when its CRLF rendering is normalised: CRLF→LF
normalisation inverts LF→CRLF rendering. -/
theorem crlfToLf_lfToCrlf (F : List Nat) (hlf : crlfToLf F = F) :
    crlfToLf (lfToCrlf F) = F := by
  induction F with
  | nil => rfl
  | cons b tail ih =>
    cases tail with
    | nil =>
      by_cases hb : b = 10
      · subst hb
        rfl
      · rw [lfToCrlf, if_neg hb]
        rfl
    | cons c r =>
      have hnot : ¬(b = 13 ∧ c = 10) := by
        intro hand
        rw [crlfToLf, if_pos hand] at hlf
        exact absurd (List.head_eq_of_cons_eq hlf) (by omega)
      have htail : crlfToLf (c :: r) = c :: r := by
        rw [crlfToLf, if_neg hnot] at hlf
        exact List.tail_eq_of_cons_eq hlf
      have ihr := ih htail
      have hhead : (lfToCrlf (c :: r)).head? = some (if c = 10 then 13 else c) := by
        rw [lfToCrlf]
        by_cases hc : c = 10
        · simp [hc]
        · simp [hc]
      by_cases hb : b = 10
      · subst hb
        rw [lfToCrlf, if_pos rfl]
        rw [crlfToLf, if_pos ⟨rfl, rfl⟩]
        rw [ihr]
      · rw [lfToCrlf, if_neg hb]
        rw [crlfToLf_cons b (lfToCrlf (c :: r)) ?hside, ihr]
        case hside =>
          rw [hhead]
          by_cases hc : c = 10 <;> simp [hc]

/-- A zero byte among the first `n` bytes of the CRLF rendering maps to a
zero byte among the first `n` bytes of the original: CRLF rendering only
inserts `\r` (13) bytes, pushing content rightward. -/
theorem lfToCrlf_zero_take (F : List Nat) (n : Nat)
    (h : 0 ∈ (lfToCrlf F).take n) : 0 ∈ F.take n := by
  induction F generalizing n with
  | nil => simp [lfToCrlf] at h
  | cons b r ih =>
    by_cases hb : b = 10
    · subst hb
      rw [lfToCrlf, if_pos rfl] at h
      match n with
      | 0 => simp at h
      | 1 => simp at h
      | m + 2 =>
        simp at h
        have hm := ih m h
        show 0 ∈ (10 :: r).take (m + 2)
        simp
        have hmm : (0 : Nat) ∈ List.take m (List.take (m + 1) r) := by
          rw [List.take_take, Nat.min_eq_left (by omega)]
          exact hm
        exact List.take_subset _ _ hmm
    · rw [lfToCrlf, if_neg hb] at h
      match n with
      | 0 => simp at h
      | m + 1 =>
        simp at h ⊢
        rcases h with h0 | hm
        · exact Or.inl h0
        · exact Or.inr (ih m hm)

/-- C2: the raw fingerprint is invariant under the platform line-ending
convention.  For every non-binary byte stream `F` whose line endings are
already LF-only (`crlfToLf F = F`), the CRLF rendering of `F` is also
non-binary, and `raw` hashes exactly the same byte stream for the CRLF
rendering of `F` as for `F` itself, so both renderings receive the same
`RawSHA256` fingerprint. -/
theorem raw_crlf_invariant (F : List Nat) (hlf : crlfToLf F = F)
    (hbin : isBinary F = false) :
    isBinary (lfToCrlf F) = false ∧
      rawNormalized (lfToCrlf F) = rawNormalized F := by
  have h2 : isBinary (lfToCrlf F) = false := by
    cases hc : isBinary (lfToCrlf F) with
    | false => rfl
    | true =>
      have hc2 : 0 ∈ (lfToCrlf F).take 8000 := by simpa [isBinary] using hc
      have hmem := lfToCrlf_zero_take F 8000 hc2
      have hbin2 : ∀ x ∈ F.take 8000, ¬x = 0 := by simpa [isBinary] using hbin
      exact absurd rfl (hbin2 0 hmem)
  refine ⟨h2, ?_⟩
  rw [rawNormalized, rawNormalized, h2, hbin]
  simp only [Bool.false_eq_true, if_neg, not_false_iff]
  rw [crlfToLf_lfToCrlf F hlf, hlf]

/-- C2 (witness): the two-line text `hi\nyo\n` (bytes) is non-binary and
LF-only; its CRLF rendering is also non-binary and hashes to the same
normalised stream. -/
theorem raw_crlf_invariant_witness :
    isBinary (lfToCrlf [104, 105, 10, 121, 111, 10]) = false ∧
      rawNormalized (lfToCrlf [104, 105, 10, 121, 111, 10]) =
        rawNormalized [104, 105, 10, 121, 111, 10] :=
  raw_crlf_invariant [104, 105, 10, 121, 111, 10] (by decide) (by decide)

/-- Postfix occurrences add up over path concatenation. -/
theorem pfxCount_append (p q : LPath) :
    pfxCount (p ++ q) = pfxCount p + pfxCount q := by
  simp [pfxCount]

/-- Relative path components carry no postfix occurrences. -/
theorem pfxCount_plainSegs (rel : List String) :
    pfxCount (plainSegs rel) = 0 := by
  induction rel with
  | nil => rfl
  | cons a r ih => simp [plainSegs, pfxCount] at ih ⊢; exact ih

/-- `logical_suffix` adds exactly one postfix occurrence. -/
theorem pfxCount_pfxApply (p : LPath) :
    pfxCount (pfxApply p) = pfxCount p + 1 := by
  induction p with
  | nil => rfl
  | cons s rest ih =>
    cases rest with
    | nil => simp [pfxApply, pfxCount]
    | cons s2 rest2 =>
      rw [pfxApply]
      simp [pfxCount] at ih ⊢
      omega

/-- Postfix occurrences in the logical parent of a target. -/
def parentCount (t : WTarget) : Nat :=
  pfxCount (t.parent.getD [])

/-- Every entry a target emits has exactly its parent's postfix count. -/
theorem stepEmits_count (opts : OptionsM) (t : WTarget) (p : LPath)
    (hmem : WOut.entry p ∈ stepEmits opts t) : pfxCount p = parentCount t := by
  rw [stepEmits, List.mem_filterMap] at hmem
  obtain ⟨pf, _, hpf⟩ := hmem
  by_cases hexc : opts.filter.excludesP opts.pfx (entryPath t.parent pf.1)
  · simp [hexc] at hpf
  · by_cases hall : opts.filter.allowsP opts.pfx (entryPath t.parent pf.1)
    · simp only [hexc, hall, if_true, if_false, Bool.false_eq_true,
        not_false_iff, Option.some.injEq, WOut.entry.injEq] at hpf
      subst hpf
      rw [entryPath, pfxCount_append, pfxCount_plainSegs, parentCount]
      omega
    · simp [hexc, hall] at hpf

/-- Every target enqueued by a target at depth `d` (under recursion depth
`N`) has depth `d + 1 ≤ N`, and its logical parent has one more postfix
occurrence than the enqueuing entry's path. -/
theorem stepTargets_inv (opts : OptionsM) (t : WTarget) (t' : WTarget)
    (N : Nat) (hrec : opts.recursion = .enabled N)
    (hmem : t' ∈ stepTargets opts t) :
    t'.depth = t.depth + 1 ∧ t'.depth ≤ N ∧
      parentCount t' = parentCount t + 1 := by
  rw [stepTargets, List.mem_filterMap] at hmem
  obtain ⟨pf, _, hpf⟩ := hmem
  by_cases hexc : opts.filter.excludesP opts.pfx (entryPath t.parent pf.1)
  · simp [hexc] at hpf
  · rw [if_neg (by simpa using hexc), hrec] at hpf
    cases hnode : pf.2 with
    | plain name =>
      rw [hnode] at hpf
      simp at hpf
    | dir name c =>
      rw [hnode] at hpf
      simp at hpf
    | archive name c =>
      rw [hnode] at hpf
      dsimp only at hpf
      by_cases hd : t.depth + 1 ≤ N
      · rw [if_pos hd] at hpf
        simp only [Option.some.injEq] at hpf
        subst hpf
        refine ⟨rfl, hd, ?_⟩
        rw [parentCount, parentCount]
        simp only [Option.getD_some]
        rw [pfxCount_pfxApply, entryPath, pfxCount_append, pfxCount_plainSegs]
      · rw [if_neg hd] at hpf
        simp at hpf

/-- The depth-bound invariant of the walker queue: if every queued target's
logical parent has at most `depth` postfix occurrences and depth at most
`N`, then every entry ever emitted has at most `N` postfix occurrences. -/
theorem walkQueueAux_bound (opts : OptionsM) (N : Nat)
    (hrec : opts.recursion = .enabled N) (fuel : Nat) (q : List WTarget)
    (hq : ∀ t ∈ q, parentCount t ≤ t.depth ∧ t.depth ≤ N) (p : LPath)
    (hmem : WOut.entry p ∈ walkQueueAux opts fuel q) : pfxCount p ≤ N := by
  induction fuel generalizing q with
  | zero => simp [walkQueueAux] at hmem
  | succ fuel ih =>
    cases q with
    | nil => simp [walkQueueAux] at hmem
    | cons t rest =>
      rw [walkQueueAux, List.mem_append] at hmem
      rcases hmem with hemit | hrest
      · have hc := stepEmits_count opts t p hemit
        have ht := hq t (by simp)
        omega
      · refine ih (rest ++ stepTargets opts t) ?_ hrest
        intro t' ht'
        rw [List.mem_append] at ht'
        rcases ht' with h1 | h2
        · exact hq t' (by simp [h1])
        · obtain ⟨hd, hdN, hpc⟩ := stepTargets_inv opts t t' N hrec h2
          have ht := hq t (by simp)
          omega

/-- C4: for every walk with `Recursion::Enabled { depth: N }`, every
logical path emitted by the archive-expansion walker contains at most `N`
postfix occurrences: expansion never descends past `N` nested archive
levels. -/
theorem walk_depth_bound (root : RootNode) (opts : OptionsM) (N : Nat)
    (hrec : opts.recursion = .enabled N) (p : LPath)
    (hmem : WOut.entry p ∈ walkRoot root opts) : pfxCount p ≤ N := by
  have hinit : ∀ t ∈ rootQueue root, parentCount t ≤ t.depth ∧ t.depth ≤ N := by
    intro t ht
    cases root <;> simp [rootQueue] at ht <;> subst ht <;>
      exact ⟨Nat.le_refl 0, Nat.zero_le N⟩
  cases root with
  | rootMissing => simp [walkRoot] at hmem
  | rootDir c => exact walkQueueAux_bound opts N hrec _ _ hinit p hmem
  | rootFile f => exact walkQueueAux_bound opts N hrec _ _ hinit p hmem
  | rootSymlinkToFile n => exact walkQueueAux_bound opts N hrec _ _ hinit p hmem
  | rootSymlinkToDir n => exact walkQueueAux_bound opts N hrec _ _ hinit p hmem

/-- C4 (witness): walking a directory containing `a.zip` (which contains
`b`) at depth limit 1 emits the entry `a.zip!/b` with exactly one postfix
occurrence, within the bound. -/
theorem walk_depth_bound_witness :
    pfxCount [("a.zip", 1), ("b", 0)] ≤ 1 :=
  walk_depth_bound (.rootDir [.archive "a.zip" [.plain "b"]])
    ⟨.enabled 1, defaultFilter, "!"⟩ 1 rfl [("a.zip", 1), ("b", 0)]
    (by
      have h : walkRoot (.rootDir [.archive "a.zip" [.plain "b"]])
          ⟨.enabled 1, defaultFilter, "!"⟩ =
          [.entry [("a.zip", 0)], .entry [("a.zip", 1), ("b", 0)]] := by
        simp [walkRoot, rootQueue, qWeight, tWeight, filesOf, nodeWeight,
          listWeight, walkQueueAux, stepEmits, stepTargets, entryPath,
          plainSegs, pfxApply, FilterM.excludesP, FilterM.allowsP, renderSegs,
          defaultFilter]
      rw [h]
      simp)

/-- Every file-system node weighs at least one unit. -/
theorem nodeWeight_pos (n : FNode) : 1 ≤ nodeWeight n := by
  cases n with
  | plain name => rw [nodeWeight]
  | archive name c => rw [nodeWeight]; omega
  | dir name c => rw [nodeWeight]; omega

/-- The files listed under a forest weigh no more than the forest itself:
directory nodes are consumed by the listing. -/
theorem filesOf_weight_le (C : List FNode) :
    ((filesOf C).map fun pf => nodeWeight pf.2).sum ≤ listWeight C := by
  have H : ∀ w C, listWeight C ≤ w →
      ((filesOf C).map fun pf => nodeWeight pf.2).sum ≤ listWeight C := by
    intro w
    induction w with
    | zero =>
      intro C hC
      cases C with
      | nil => simp [filesOf]
      | cons x rest =>
        rw [listWeight] at hC
        have := nodeWeight_pos x
        omega
    | succ w ih =>
      intro C hC
      cases C with
      | nil => simp [filesOf]
      | cons x rest =>
        rw [listWeight] at hC ⊢
        cases x with
        | plain name =>
          rw [filesOf]
          rw [nodeWeight] at hC ⊢
          simp only [List.map_cons, List.sum_cons, nodeWeight]
          have := ih rest (by omega)
          omega
        | archive name c =>
          rw [filesOf]
          rw [nodeWeight] at hC ⊢
          simp only [List.map_cons, List.sum_cons, nodeWeight]
          have := ih rest (by omega)
          omega
        | dir name c =>
          rw [filesOf]
          rw [nodeWeight] at hC ⊢
          simp only [List.map_append, List.sum_append, List.map_map]
          have hc : ((filesOf c).map fun pf => nodeWeight pf.2).sum ≤
              listWeight c := ih c (by omega)
          have hr := ih rest (by omega)
          have hmap : ((filesOf c).map
              ((fun pf => nodeWeight pf.2) ∘ fun pf => (name :: pf.1, pf.2))) =
              (filesOf c).map fun pf => nodeWeight pf.2 := by
            simp [Function.comp]
          rw [hmap]
          omega
  exact H (listWeight C) C (Nat.le_refl _)

/-- Summing a function over a `filterMap` is bounded by summing a
per-element bound over the original list. -/
theorem sum_filterMap_le {α β : Type} (f : α → Option β) (g : β → Nat)
    (bound : α → Nat) (hb : ∀ a b, f a = some b → g b ≤ bound a)
    (l : List α) : ((l.filterMap f).map g).sum ≤ (l.map bound).sum := by
  induction l with
  | nil => simp
  | cons a rest ih =>
    rw [List.filterMap_cons]
    cases hf : f a with
    | none =>
      simp only [List.map_cons, List.sum_cons]
      exact Nat.le_trans ih (by omega)
    | some b =>
      simp only [List.map_cons, List.sum_cons]
      have := hb a b hf
      omega

/-- The targets a target enqueues weigh no more than its own files. -/
theorem stepTargets_weight (opts : OptionsM) (t : WTarget) :
    ((stepTargets opts t).map tWeight).sum ≤
      (t.files.map fun pf => nodeWeight pf.2).sum := by
  rw [stepTargets]
  refine sum_filterMap_le _ _ _ ?_ t.files
  intro pf t' hpf
  by_cases hexc : opts.filter.excludesP opts.pfx (entryPath t.parent pf.1)
  · simp [hexc] at hpf
  · rw [if_neg (by simpa using hexc)] at hpf
    cases hrec : opts.recursion with
    | disabled =>
      rw [hrec] at hpf
      simp at hpf
    | enabled maxDepth =>
      rw [hrec] at hpf
      cases hnode : pf.2 with
      | plain name => rw [hnode] at hpf; simp at hpf
      | dir name c => rw [hnode] at hpf; simp at hpf
      | archive name c =>
        rw [hnode] at hpf
        dsimp only at hpf
        by_cases hd : t.depth + 1 ≤ maxDepth
        · rw [if_pos hd] at hpf
          simp only [Option.some.injEq] at hpf
          subst hpf
          rw [tWeight, nodeWeight]
          dsimp only
          have := filesOf_weight_le c
          omega
        · rw [if_neg hd] at hpf
          simp at hpf

/-- Processing a target strictly decreases the total queue weight. -/
theorem qWeight_step_lt (opts : OptionsM) (t : WTarget) (rest : List WTarget) :
    qWeight (rest ++ stepTargets opts t) < qWeight (t :: rest) := by
  rw [qWeight, qWeight, List.map_append, List.sum_append, List.map_cons,
    List.sum_cons, tWeight]
  have h1 := stepTargets_weight opts t
  omega

/-- The walker's fuel is irrelevant beyond the queue weight: any fuel at
least `qWeight q` computes the same output as `qWeight q` itself, so the
fuel chosen by `walkRoot` never truncates the walk. -/
theorem walkQueueAux_stable (opts : OptionsM) (fuel : Nat) (q : List WTarget)
    (h : qWeight q ≤ fuel) :
    walkQueueAux opts fuel q = walkQueueAux opts (qWeight q) q := by
  induction fuel using Nat.strong_induction_on generalizing q with
  | _ fuel ih =>
    cases fuel with
    | zero =>
      cases q with
      | nil => rfl
      | cons t rest =>
        rw [qWeight, List.map_cons, List.sum_cons, tWeight] at h
        omega
    | succ f =>
      cases q with
      | nil => rfl
      | cons t rest =>
        have hpos : 1 ≤ qWeight (t :: rest) := by
          rw [qWeight, List.map_cons, List.sum_cons, tWeight]
          omega
        obtain ⟨w, hw⟩ : ∃ w, qWeight (t :: rest) = w + 1 :=
          ⟨qWeight (t :: rest) - 1, by omega⟩
        have hlt := qWeight_step_lt opts t rest
        have hle1 : qWeight (rest ++ stepTargets opts t) ≤ f := by omega
        have hle2 : qWeight (rest ++ stepTargets opts t) ≤ w := by omega
        rw [hw]
        show stepEmits opts t ++
            walkQueueAux opts f (rest ++ stepTargets opts t) =
          stepEmits opts t ++
            walkQueueAux opts w (rest ++ stepTargets opts t)
        rw [ih f (by omega) _ hle1, ih w (by omega) _ hle2]

/-- A target's iteration never sends an invariant error (the `process`
closure of `walk_inner` only builds entries or expansion errors). -/
theorem stepEmits_no_invariant (opts : OptionsM) (t : WTarget) :
    WOut.errInvariant ∉ stepEmits opts t := by
  intro h
  rw [stepEmits, List.mem_filterMap] at h
  obtain ⟨pf, _, hpf⟩ := h
  by_cases hexc : opts.filter.excludesP opts.pfx (entryPath t.parent pf.1)
  · simp [hexc] at hpf
  · by_cases hall : opts.filter.allowsP opts.pfx (entryPath t.parent pf.1)
    · simp [hexc, hall] at hpf
    · simp [hexc, hall] at hpf

/-- The walker's queue loop never sends an invariant error. -/
theorem walkQueueAux_no_invariant (opts : OptionsM) (fuel : Nat)
    (q : List WTarget) : WOut.errInvariant ∉ walkQueueAux opts fuel q := by
  induction fuel generalizing q with
  | zero => simp [walkQueueAux]
  | succ fuel ih =>
    cases q with
    | nil => simp [walkQueueAux]
    | cons t rest =>
      rw [walkQueueAux, List.mem_append]
      intro h
      rcases h with h | h
      · exact stepEmits_no_invariant opts t h
      · exact ih (rest ++ stepTargets opts t) h

/-- `walk_inner` never sends an invariant error for any root: it has no
root-validation step at all. -/
theorem walk_no_invariant (root : RootNode) (opts : OptionsM) :
    WOut.errInvariant ∉ walkRoot root opts := by
  cases root with
  | rootMissing => simp [walkRoot]
  | rootDir c => exact walkQueueAux_no_invariant opts _ _
  | rootFile f => exact walkQueueAux_no_invariant opts _ _
  | rootSymlinkToFile n => exact walkQueueAux_no_invariant opts _ _
  | rootSymlinkToDir n => exact walkQueueAux_no_invariant opts _ _

/-- C6 (counterexample): the claim asserts the iterator walker fails
immediately with an invariant error when the root is a symbolic link, or a
file that is not a supported archive.  Instead `walk_inner` performs no
root validation: on a symlink-to-file root, and on a plain-file root, it
emits the file itself as an ordinary entry (at the empty relative path)
and reports no error at all. -/
theorem walk_root_guards_cex :
    walkRoot (.rootSymlinkToFile "s") defaultOptions = [.entry []] ∧
      walkRoot (.rootFile (.plain "f")) defaultOptions = [.entry []] := by
  constructor <;>
    simp [walkRoot, rootQueue, qWeight, tWeight, filesOf, nodeWeight,
      listWeight, walkQueueAux, stepEmits, stepTargets, entryPath, plainSegs,
      pfxApply, FilterM.excludesP, FilterM.allowsP, renderSegs, defaultOptions,
      defaultFilter]

/-- C6 (amended): root validation lives in the batch expansion `all`, not
in the iterator walker.  With a default filter, `all` fails immediately
with the target-is-symlink invariant error on a symlink root and with the
target-not-walkable invariant error on a root that is neither a directory
nor a file; the iterator walker itself never reports an invariant error
for any root. -/
theorem all_root_guards_amended (opts : OptionsM) (name : String)
    (hf : opts.filter = defaultFilter) :
    allGuard (.rootSymlinkToFile name) opts = some .targetSymlink ∧
      allGuard (.rootSymlinkToDir name) opts = some .targetSymlink ∧
        allGuard .rootMissing opts = some .walkable ∧
          ∀ root, WOut.errInvariant ∉ walkRoot root opts := by
  refine ⟨?_, ?_, ?_, fun root => walk_no_invariant root opts⟩ <;>
    simp [allGuard, hf]

/-- C6 (witness for the amended theorem): with default options, `all`
rejects a symlink root with the target-is-symlink invariant error. -/
theorem all_root_guards_amended_witness :
    allGuard (.rootSymlinkToFile "s") defaultOptions =
      some InvariantE.targetSymlink :=
  (all_root_guards_amended defaultOptions "s" rfl).1

/-- C7 (counterexample): the claim asserts that the iterator walker, like
`all`, fails with the filters-unsupported invariant error on any
non-default filter and performs no entry emission.  Instead `walk_inner`
has no such rejection: with the non-default filter
`{exclude: {zzz}, include: {}}` it walks normally and emits the entry
`a`, reporting no error. -/
theorem walk_filter_reject_cex :
    walkRoot (.rootDir [.plain "a"])
        ⟨.enabled 1000, ⟨[], [["zzz"]]⟩, "!_fossa.virtual_!"⟩ =
      [.entry [("a", 0)]] ∧
      (⟨[], [["zzz"]]⟩ : FilterM) ≠ defaultFilter := by
  refine ⟨?_, by decide⟩
  simp [walkRoot, rootQueue, qWeight, tWeight, filesOf, nodeWeight,
    listWeight, walkQueueAux, stepEmits, stepTargets, entryPath, plainSegs,
    pfxApply, FilterM.excludesP, FilterM.allowsP, renderSegs, defaultFilter]
  decide

/-- C7 (amended): only the batch expansion `all` rejects non-default
filters: for every root and every options value with a non-default
filter, `all` fails with the filters-unsupported invariant error before
performing any expansion, while the iterator walker never reports an
invariant error (it applies the filters instead). -/
theorem all_filter_reject_amended (root : RootNode) (opts : OptionsM)
    (hf : opts.filter ≠ defaultFilter) :
    allGuard root opts = some .filtersUnsupported ∧
      WOut.errInvariant ∉ walkRoot root opts :=
  ⟨by simp [allGuard, hf], walk_no_invariant root opts⟩

/-- C7 (witness for the amended theorem): `all` on a directory root with
an exclude filter fails with the filters-unsupported invariant error. -/
theorem all_filter_reject_amended_witness :
    allGuard (.rootDir [.plain "a"])
        ⟨.enabled 1000, ⟨[], [["zzz"]]⟩, "!_fossa.virtual_!"⟩ =
      some InvariantE.filtersUnsupported :=
  (all_filter_reject_amended (.rootDir [.plain "a"])
    ⟨.enabled 1000, ⟨[], [["zzz"]]⟩, "!_fossa.virtual_!"⟩ (by decide)).1

/-- Splitting a list at an element that occurs nowhere else is unique. -/
theorem append_cons_unique {α : Type} (x : α) (l1 l2 l3 l4 : List α)
    (h : l1 ++ x :: l2 = l3 ++ x :: l4) (h3 : x ∉ l3) (h4 : x ∉ l4) :
    l1 = l3 ∧ l2 = l4 := by
  induction l3 generalizing l1 with
  | nil =>
    cases l1 with
    | nil =>
      simp at h
      exact ⟨rfl, h⟩
    | cons y l1' =>
      simp at h
      obtain ⟨rfl, h2⟩ := h
      refine absurd ?_ h4
      rw [← h2]
      simp
  | cons y l3' ih =>
    cases l1 with
    | nil =>
      simp at h
      obtain ⟨rfl, h2⟩ := h
      refine absurd ?_ h3
      simp
    | cons z l1' =>
      simp at h
      obtain ⟨rfl, h2⟩ := h
      have hx3 : x ∉ l3' := fun hm => h3 (by simp [hm])
      obtain ⟨he1, he2⟩ := ih l1' h2 hx3
      exact ⟨by rw [he1], he2⟩

/-- C8: on every successful full run, `complete_scan` appears exactly once
in the remote-interaction trace; every `append_artifacts` call precedes it
(none follows it), and every `forensics_status` poll follows it (none
precedes it). -/
theorem run_complete_once (arts : List ArtifactM) (resps : List Status) :
    (runTrace arts resps).count .completed = 1 ∧
      ∀ pre post, runTrace arts resps = pre ++ .completed :: post →
        (∀ b, RunEv.appended b ∉ post) ∧ ∀ s, RunEv.polledStatus s ∉ pre := by
  have hA : RunEv.completed ∉ (upload arts).1.map RunEv.appended := by
    intro h
    rw [List.mem_map] at h
    obtain ⟨b, _, hb⟩ := h
    exact RunEv.noConfusion hb
  have hP : RunEv.completed ∉
      (waitTrace resps).filterMap fun e =>
        match e with
        | .polled s => some (.polledStatus s)
        | _ => none := by
    intro h
    rw [List.mem_filterMap] at h
    obtain ⟨e, _, he⟩ := h
    cases e <;> simp at he
  constructor
  · rw [runTrace]
    simp only [List.count_cons, List.count_append]
    rw [List.count_eq_zero.mpr hA, List.count_eq_zero.mpr hP]
    simp
  · intro pre post hsplit
    rw [runTrace] at hsplit
    have hsplit2 : pre ++ .completed :: post =
        (RunEv.created :: (upload arts).1.map RunEv.appended) ++
          .completed :: ((waitTrace resps).filterMap fun e =>
            match e with
            | .polled s => some (.polledStatus s)
            | _ => none) := by
      rw [← hsplit]
    have hC : RunEv.completed ∉
        RunEv.created :: (upload arts).1.map RunEv.appended := by
      intro h
      rcases List.mem_cons.mp h with h | h
      · exact RunEv.noConfusion h
      · exact hA h
    obtain ⟨hpre, hpost⟩ := append_cons_unique RunEv.completed pre post _ _
      hsplit2 hC hP
    constructor
    · intro b hb
      rw [hpost, List.mem_filterMap] at hb
      obtain ⟨e, _, he⟩ := hb
      cases e <;> simp at he
    · intro s hs
      rw [hpre] at hs
      rcases List.mem_cons.mp hs with h | h
      · exact RunEv.noConfusion h
      · rw [List.mem_map] at h
        obtain ⟨b, _, hb⟩ := h
        exact RunEv.noConfusion hb

/-- C8 (witness): on the run uploading one artifact with one `DONE` poll,
the trace splits uniquely around `complete_scan`, and no poll precedes
it. -/
theorem run_complete_once_witness :
    RunEv.polledStatus Status.finished ∉
      [RunEv.created, RunEv.appended [(("p" : String), ("q" : String))]] :=
  ((run_complete_once [("p", "q")] [.finished]).2
    [RunEv.created, RunEv.appended [("p", "q")]]
    [RunEv.polledStatus .finished] (by decide)).2 .finished

/-- The four possible behaviours of one iteration of `wait_forensics`:
repeat status (sleep, no log), new terminal success, new terminal failure,
or new non-terminal status (log, immediate next poll). -/
theorem waitAux_shape (last : Option Status) (s : Status) (rest : List Status) :
    (last = some s ∧
        waitAux last (s :: rest) = .polled s :: .slept :: waitAux last rest) ∨
      (last ≠ some s ∧ s = .finished ∧
          waitAux last (s :: rest) = [.polled s, .logged s, .waitDone]) ∨
        (last ≠ some s ∧ s = .failed ∧
            waitAux last (s :: rest) = [.polled s, .waitFailed]) ∨
          (last ≠ some s ∧ s ≠ .finished ∧ s ≠ .failed ∧
            waitAux last (s :: rest) =
              .polled s :: .logged s :: waitAux (some s) rest) := by
  by_cases hls : last = some s
  · exact Or.inl ⟨hls, by rw [waitAux, if_pos hls]⟩
  · by_cases hfin : s = Status.finished
    · exact Or.inr (Or.inl ⟨hls, hfin,
        by rw [waitAux, if_neg hls, if_pos hfin]⟩)
    · by_cases hfail : s = Status.failed
      · exact Or.inr (Or.inr (Or.inl ⟨hls, hfail,
          by rw [waitAux, if_neg hls, if_neg hfin, if_pos hfail]⟩))
      · exact Or.inr (Or.inr (Or.inr ⟨hls, hfin, hfail,
          by rw [waitAux, if_neg hls, if_neg hfin, if_neg hfail]⟩))

/-- A `wait_forensics` trace always begins with a poll. -/
theorem waitAux_head (last : Option Status) (resps : List Status)
    (e : WaitEv) (tr : List WaitEv) (h : waitAux last resps = e :: tr) :
    ∃ u, e = .polled u := by
  cases resps with
  | nil => simp [waitAux] at h
  | cons s0 r =>
    rcases waitAux_shape last s0 r with ⟨_, heq⟩ | ⟨_, _, heq⟩ |
      ⟨_, _, heq⟩ | ⟨_, _, _, heq⟩ <;>
      · rw [heq] at h
        simp at h
        exact ⟨s0, h.1.symm⟩

/-- `lastPollD` distributes over appending trace fragments. -/
theorem lastPollD_append (last : Option Status) (a b : List WaitEv) :
    lastPollD last (a ++ b) = lastPollD (lastPollD last a) b := by
  rw [lastPollD, lastPollD, lastPollD, List.foldl_append]

/-- Part 1 of the delay discipline: every sleep in a `wait_forensics`
trace immediately follows a poll whose status equals the previously
observed one (the status of the nearest earlier poll, or the initial
`last_status`). -/
theorem wait_sleep_aux (resps : List Status) (last : Option Status)
    (pre post : List WaitEv)
    (h : waitAux last resps = pre ++ .slept :: post) :
    ∃ pre' s, pre = pre' ++ [.polled s] ∧ lastPollD last pre' = some s := by
  induction resps generalizing last pre post with
  | nil =>
    rw [waitAux] at h
    exact absurd h.symm (by simp)
  | cons s0 r ih =>
    rcases waitAux_shape last s0 r with ⟨hls, heq⟩ | ⟨hls, hfin, heq⟩ |
      ⟨hls, hfail, heq⟩ | ⟨hls, hnf, hnfa, heq⟩
    · rw [heq] at h
      rcases pre with _ | ⟨e1, pre1⟩
      · simp at h
      · rcases pre1 with _ | ⟨e2, pre2⟩
        · simp at h
          exact ⟨[], s0, by simp [h.1], by simpa [lastPollD] using hls⟩
        · simp at h
          obtain ⟨he1, he2, hT⟩ := h
          obtain ⟨pre', s', hpre, hlast⟩ := ih last pre2 post hT
          refine ⟨e1 :: e2 :: pre', s', by rw [hpre]; simp, ?_⟩
          rw [← he1, ← he2]
          show lastPollD last (WaitEv.polled s0 :: WaitEv.slept :: pre') =
            some s'
          rw [show WaitEv.polled s0 :: WaitEv.slept :: pre' =
            [WaitEv.polled s0, WaitEv.slept] ++ pre' from rfl]
          rw [lastPollD_append]
          rw [show lastPollD last [WaitEv.polled s0, WaitEv.slept] =
            some s0 from rfl]
          rw [← hls, hlast]
    · subst hfin
      rw [heq] at h
      have hmem : WaitEv.slept ∈ pre ++ WaitEv.slept :: post := by simp
      rw [← h] at hmem
      simp at hmem
    · subst hfail
      rw [heq] at h
      have hmem : WaitEv.slept ∈ pre ++ WaitEv.slept :: post := by simp
      rw [← h] at hmem
      simp at hmem
    · rw [heq] at h
      rcases pre with _ | ⟨e1, pre1⟩
      · simp at h
      · rcases pre1 with _ | ⟨e2, pre2⟩
        · simp at h
        · simp at h
          obtain ⟨he1, he2, hT⟩ := h
          obtain ⟨pre', s', hpre, hlast⟩ := ih (some s0) pre2 post hT
          refine ⟨e1 :: e2 :: pre', s', by rw [hpre]; simp, ?_⟩
          rw [← he1, ← he2]
          show lastPollD last (WaitEv.polled s0 :: WaitEv.logged s0 :: pre') =
            some s'
          rw [show WaitEv.polled s0 :: WaitEv.logged s0 :: pre' =
            [WaitEv.polled s0, WaitEv.logged s0] ++ pre' from rfl]
          rw [lastPollD_append]
          rw [show lastPollD last [WaitEv.polled s0, WaitEv.logged s0] =
            some s0 from rfl]
          exact hlast

/-- Part 2 of the delay discipline: after a poll that returns a status
different from the previously observed one, the next event is never the
1-second sleep. -/
theorem wait_nodelay_aux (resps : List Status) (last : Option Status)
    (pre : List WaitEv) (s : Status) (e : WaitEv) (rest : List WaitEv)
    (h : waitAux last resps = pre ++ .polled s :: e :: rest)
    (hne : lastPollD last pre ≠ some s) : e ≠ .slept := by
  induction resps generalizing last pre e rest with
  | nil =>
    rw [waitAux] at h
    exact absurd h.symm (by simp)
  | cons s0 r ih =>
    rcases waitAux_shape last s0 r with ⟨hls, heq⟩ | ⟨hls, hfin, heq⟩ |
      ⟨hls, hfail, heq⟩ | ⟨hls, hnf, hnfa, heq⟩
    · rw [heq] at h
      rcases pre with _ | ⟨e1, pre1⟩
      · simp at h
        refine absurd ?_ hne
        rw [show lastPollD last [] = last from rfl, hls, h.1]
      · rcases pre1 with _ | ⟨e2, pre2⟩
        · simp at h
        · simp at h
          obtain ⟨he1, he2, hT⟩ := h
          refine ih last pre2 e rest hT ?_
          intro hcon
          refine hne ?_
          rw [← he1, ← he2]
          show lastPollD last (WaitEv.polled s0 :: WaitEv.slept :: pre2) =
            some s
          rw [show WaitEv.polled s0 :: WaitEv.slept :: pre2 =
            [WaitEv.polled s0, WaitEv.slept] ++ pre2 from rfl]
          rw [lastPollD_append]
          rw [show lastPollD last [WaitEv.polled s0, WaitEv.slept] =
            some s0 from rfl]
          rw [← hls, hcon]
    · subst hfin
      rw [heq] at h
      rcases pre with _ | ⟨e1, pre1⟩
      · simp at h
        obtain ⟨-, he, -⟩ := h
        rw [← he]
        simp
      · rcases pre1 with _ | ⟨e2, pre2⟩
        · simp at h
        · rcases pre2 with _ | ⟨e3, pre3⟩
          · simp at h
          · simp at h
    · subst hfail
      rw [heq] at h
      rcases pre with _ | ⟨e1, pre1⟩
      · simp at h
        obtain ⟨-, he, -⟩ := h
        rw [← he]
        simp
      · rcases pre1 with _ | ⟨e2, pre2⟩
        · simp at h
        · simp at h
    · rw [heq] at h
      rcases pre with _ | ⟨e1, pre1⟩
      · simp at h
        obtain ⟨-, he, -⟩ := h
        rw [← he]
        simp
      · rcases pre1 with _ | ⟨e2, pre2⟩
        · simp at h
        · simp at h
          obtain ⟨he1, he2, hT⟩ := h
          refine ih (some s0) pre2 e rest hT ?_
          intro hcon
          refine hne ?_
          rw [← he1, ← he2]
          show lastPollD last (WaitEv.polled s0 :: WaitEv.logged s0 :: pre2) =
            some s
          rw [show WaitEv.polled s0 :: WaitEv.logged s0 :: pre2 =
            [WaitEv.polled s0, WaitEv.logged s0] ++ pre2 from rfl]
          rw [lastPollD_append]
          rw [show lastPollD last [WaitEv.polled s0, WaitEv.logged s0] =
            some s0 from rfl]
          exact hcon

/-- Part 3 of the delay discipline: between a poll that returns a status
different from the previously observed one and the next poll, the trace
contains exactly one event: the single log of the new status. -/
theorem wait_log_once_aux (resps : List Status) (last : Option Status)
    (pre : List WaitEv) (s : Status) (mid : List WaitEv) (t : Status)
    (rest : List WaitEv)
    (h : waitAux last resps = pre ++ .polled s :: (mid ++ .polled t :: rest))
    (hne : lastPollD last pre ≠ some s)
    (hmid : ∀ x ∈ mid, isPoll x = false) : mid = [.logged s] := by
  induction resps generalizing last pre mid rest with
  | nil =>
    rw [waitAux] at h
    exact absurd h.symm (by simp)
  | cons s0 r ih =>
    rcases waitAux_shape last s0 r with ⟨hls, heq⟩ | ⟨hls, hfin, heq⟩ |
      ⟨hls, hfail, heq⟩ | ⟨hls, hnf, hnfa, heq⟩
    · rw [heq] at h
      rcases pre with _ | ⟨e1, pre1⟩
      · simp at h
        refine absurd ?_ hne
        rw [show lastPollD last [] = last from rfl, hls, h.1]
      · rcases pre1 with _ | ⟨e2, pre2⟩
        · rcases mid with _ | ⟨m1, mid1⟩ <;> simp at h
        · simp at h
          obtain ⟨he1, he2, hT⟩ := h
          refine ih last pre2 mid rest hT ?_ hmid
          intro hcon
          refine hne ?_
          rw [← he1, ← he2]
          show lastPollD last (WaitEv.polled s0 :: WaitEv.slept :: pre2) =
            some s
          rw [show WaitEv.polled s0 :: WaitEv.slept :: pre2 =
            [WaitEv.polled s0, WaitEv.slept] ++ pre2 from rfl]
          rw [lastPollD_append]
          rw [show lastPollD last [WaitEv.polled s0, WaitEv.slept] =
            some s0 from rfl]
          rw [← hls, hcon]
    · subst hfin
      rw [heq] at h
      rcases pre with _ | ⟨e1, pre1⟩
      · rcases mid with _ | ⟨m1, mid1⟩
        · simp at h
        · rcases mid1 with _ | ⟨m2, mid2⟩ <;> simp at h
      · rcases pre1 with _ | ⟨e2, pre2⟩
        · rcases mid with _ | ⟨m1, mid1⟩ <;> simp at h
        · rcases pre2 with _ | ⟨e3, pre3⟩ <;> simp at h
    · subst hfail
      rw [heq] at h
      rcases pre with _ | ⟨e1, pre1⟩
      · rcases mid with _ | ⟨m1, mid1⟩ <;> simp at h
      · rcases pre1 with _ | ⟨e2, pre2⟩ <;> simp at h
    · rw [heq] at h
      rcases pre with _ | ⟨e1, pre1⟩
      · rcases mid with _ | ⟨m1, mid1⟩
        · simp at h
        · simp at h
          obtain ⟨hs, hm1, hT⟩ := h
          rcases mid1 with _ | ⟨m2, mid2⟩
          · subst hs
            rw [← hm1]
          · exfalso
            obtain ⟨u, hu⟩ := waitAux_head (some s0) r m2 _ hT
            have := hmid m2 (by simp)
            rw [hu] at this
            simp [isPoll] at this
      · rcases pre1 with _ | ⟨e2, pre2⟩
        · simp at h
        · simp at h
          obtain ⟨he1, he2, hT⟩ := h
          refine ih (some s0) pre2 mid rest hT ?_ hmid
          intro hcon
          refine hne ?_
          rw [← he1, ← he2]
          show lastPollD last (WaitEv.polled s0 :: WaitEv.logged s0 :: pre2) =
            some s
          rw [show WaitEv.polled s0 :: WaitEv.logged s0 :: pre2 =
            [WaitEv.polled s0, WaitEv.logged s0] ++ pre2 from rfl]
          rw [lastPollD_append]
          rw [show lastPollD last [WaitEv.polled s0, WaitEv.logged s0] =
            some s0 from rfl]
          exact hcon

/-- C10: in every `wait_forensics` run, (1) the 1-second delay occurs only
immediately after a poll whose status equals the previously observed one
(which for the very first poll never happens, since nothing was observed);
(2) after a poll returning a new status the next event is never the delay;
and (3) between a poll returning a new status and the next poll the trace
holds exactly the single log of the new status, so the next poll is issued
immediately after logging once. -/
theorem wait_delay_spec (resps : List Status) :
    (∀ pre post, waitTrace resps = pre ++ .slept :: post →
        ∃ pre' s, pre = pre' ++ [.polled s] ∧ lastPollD none pre' = some s) ∧
      (∀ pre s e rest, waitTrace resps = pre ++ .polled s :: e :: rest →
          lastPollD none pre ≠ some s → e ≠ .slept) ∧
        ∀ pre s mid t rest,
          waitTrace resps = pre ++ .polled s :: (mid ++ .polled t :: rest) →
            lastPollD none pre ≠ some s → (∀ x ∈ mid, isPoll x = false) →
              mid = [.logged s] :=
  ⟨fun pre post h => wait_sleep_aux resps none pre post h,
    fun pre s e rest h hne => wait_nodelay_aux resps none pre s e rest h hne,
    fun pre s mid t rest h hne hmid =>
      wait_log_once_aux resps none pre s mid t rest h hne hmid⟩

/-- C10 (witness): on the poll responses `[STEP, NOT_STARTED,
NOT_STARTED]` the trace ends in a sleep, and the sleep indeed follows a
poll of the previously observed status (`NOT_STARTED`). -/
theorem wait_delay_spec_witness :
    ∃ pre' s,
      [WaitEv.polled (.informational "STEP"), .logged (.informational "STEP"),
          .polled .pending, .logged .pending, .polled .pending] =
        pre' ++ [WaitEv.polled s] ∧ lastPollD none pre' = some s :=
  (wait_delay_spec [.informational "STEP", .pending, .pending]).1
    [.polled (.informational "STEP"), .logged (.informational "STEP"),
      .polled .pending, .logged .pending, .polled .pending]
    [] (by decide)

/-- C9: If the producer channel closes after delivering zero artifacts, the
upload consumer returns a count of 0 without making any call to the sink's
append operation: no batch at all, in particular no empty batch. -/
theorem upload_empty_no_append : upload ([] : List ArtifactM) = ([], 0) := rfl

/-- Invariant of the upload loop: starting from a buffer strictly below the
limit, the loop returns the count of received artifacts added to the
running count, appends every buffered and received artifact exactly once
across its batches, fills every batch but the last to exactly
`ARTIFACT_BUFFER_LIMIT`, and never sends an empty or over-full batch. -/
theorem uploadGo_spec (input buf : List α) (n : Nat)
    (hb : buf.length < ARTIFACT_BUFFER_LIMIT) :
    (uploadGo input buf n).2 = n + input.length ∧
      (uploadGo input buf n).1.flatten = buf ++ input ∧
        (∀ i b, (uploadGo input buf n).1[i]? = some b →
          i + 1 < (uploadGo input buf n).1.length →
            b.length = ARTIFACT_BUFFER_LIMIT) ∧
          ∀ b ∈ (uploadGo input buf n).1,
            0 < b.length ∧ b.length ≤ ARTIFACT_BUFFER_LIMIT := by
  induction input generalizing buf n with
  | nil =>
    by_cases hemp : buf.isEmpty
    · have : buf = [] := List.isEmpty_iff.mp hemp
      subst this
      simp [uploadGo]
    · have hne : buf ≠ [] := fun h => hemp (by simp [h])
      refine ⟨by simp [uploadGo, hemp], by simp [uploadGo, hemp], ?_, ?_⟩
      · intro i b hib hlt
        have : i + 1 < 1 := by simpa [uploadGo, hemp] using hlt
        omega
      · intro b hbmem
        simp [uploadGo, hemp] at hbmem
        subst hbmem
        exact ⟨List.length_pos.mpr hne, by omega⟩
  | cons a input ih =>
    by_cases hfull : (buf ++ [a]).length = ARTIFACT_BUFFER_LIMIT
    · have h0 : ([] : List α).length < ARTIFACT_BUFFER_LIMIT := by
        simp
        omega
      obtain ⟨hcount, hjoin, hidx, hmem⟩ := ih [] (n + 1) h0
      have hgo : uploadGo (a :: input) buf n =
          ((buf ++ [a]) :: (uploadGo input [] (n + 1)).1,
            (uploadGo input [] (n + 1)).2) := by
        rw [uploadGo]
        simp [hfull]
      rw [hgo]
      refine ⟨by simp [hcount]; omega, by simp [hjoin], ?_, ?_⟩
      · intro i b hib hlt
        cases i with
        | zero =>
          simp at hib
          subst hib
          exact hfull
        | succ j =>
          simp at hib hlt
          exact hidx j b hib (by omega)
      · intro b hbmem
        simp at hbmem
        rcases hbmem with rfl | hbmem
        · exact ⟨by simp, by omega⟩
        · exact hmem b hbmem
    · have hlt2 : (buf ++ [a]).length < ARTIFACT_BUFFER_LIMIT := by
        simp at hfull ⊢
        omega
      obtain ⟨hcount, hjoin, hidx, hmem⟩ := ih (buf ++ [a]) (n + 1) hlt2
      have hf2 : ¬buf.length + 1 = ARTIFACT_BUFFER_LIMIT := by simpa using hfull
      have hgo : uploadGo (a :: input) buf n = uploadGo input (buf ++ [a]) (n + 1) := by
        rw [uploadGo]
        simp [hf2]
      rw [hgo]
      refine ⟨by rw [hcount]; simp; omega, by rw [hjoin]; simp, hidx, hmem⟩

/-- C3: for every finite sequence of artifacts received from the producer
channel, the upload consumer appends batches that partition the received
sequence in order (no artifact dropped or duplicated), every batch except
possibly the final one carries exactly `ARTIFACT_BUFFER_LIMIT = 1000`
artifacts, no batch is empty or over-full, and the returned count equals
the total number of artifacts received. -/
theorem upload_batches_spec (arts : List ArtifactM) :
    (upload arts).2 = arts.length ∧
      (upload arts).1.flatten = arts ∧
        (∀ i b, (upload arts).1[i]? = some b →
          i + 1 < (upload arts).1.length → b.length = ARTIFACT_BUFFER_LIMIT) ∧
          ∀ b ∈ (upload arts).1,
            0 < b.length ∧ b.length ≤ ARTIFACT_BUFFER_LIMIT := by
  have h := uploadGo_spec (α := ArtifactM) arts [] 0
    (by simp [ARTIFACT_BUFFER_LIMIT])
  simpa [upload] using h

/-- C3 (witness): 1001 identical artifacts are uploaded as a full batch of
exactly 1000 followed by a final batch of 1, and counted as 1001. -/
theorem upload_batches_spec_witness :
    (upload (List.replicate 1001 (("p", "q") : ArtifactM))).2 = 1001 ∧
      (List.replicate 1000 (("p", "q") : ArtifactM)).length =
        ARTIFACT_BUFFER_LIMIT := by
  have h := upload_batches_spec (List.replicate 1001 (("p", "q") : ArtifactM))
  refine ⟨by rw [h.1]; decide, ?_⟩
  exact h.2.2.1 0 (List.replicate 1000 (("p", "q") : ArtifactM)) (by decide)
    (by decide)

/-- C5 (counterexample): the claim asserts that extension-based archive
identification accepts `not-a-tar.gz`, but `not-a-tar.gz` does not end
with any supported suffix (it lacks the dot before `tar`), so
`ext_is_supported` rejects it. -/
theorem ext_not_a_tar_gz_cex : extIsSupported "not-a-tar.gz".toList = false := by
  decide

/-- C5 (amended): extension-based identification accepts a file name iff
it ends, case-sensitively, with one of the suffixes in `SUPPORTED_EXTS`;
in particular it accepts `foo.tar.gz`, rejects `not-a-tar.gz` (which ends
with none of the suffixes), and rejects `FOO.ZIP`. -/
theorem ext_is_supported_amended :
    (∀ name : List Char,
        extIsSupported name = true ↔
          ∃ ext ∈ SUPPORTED_EXTS, ext.isSuffixOf name = true) ∧
      extIsSupported "foo.tar.gz".toList = true ∧
        extIsSupported "not-a-tar.gz".toList = false ∧
          extIsSupported "FOO.ZIP".toList = false := by
  refine ⟨fun name => ?_, by decide, by decide, by decide⟩
  simp [extIsSupported, List.any_eq_true]

/-- C1 (counterexample): the claim asserts that on a line containing `//`
(outside an open multi-line comment) everything from the first `//` to the
line end is dropped regardless of a later `/*`.  On the line
`a //b /* c` the pipeline would then output `a`; instead `clean_line`
finds the `/*` first (it is searched for before `//`), keeps everything
before it — including the `//` and the text after it — and the pipeline
outputs `a //b`. -/
theorem commentStrip_slashslash_precedence_cex :
    commentStrip ["a //b /* c".toList] = "a //b".toList ∧
      commentStrip ["a //b /* c".toList] ≠ "a".toList := by
  constructor <;> decide

/-- C1 (amended): on a line that is not inside an open multi-line comment,
contains `//`, and contains no `/*`, all bytes from the first `//` up to
but not including the line terminator are dropped (the single-line rule
applies only when the `/*` search fails, because `clean_line` searches for
`/*` first). -/
theorem commentStrip_slashslash_amended (l : List Char) (i : Nat)
    (h1 : findPat '/' '*' l = none) (h2 : findPat '/' '/' l = some i) :
    cleanLine l false = (l.take i, false) ∧
      commentStrip [l] = trimChars (l.take i) := by
  have hb := findPat_some_bound '/' '/' l i h2
  obtain ⟨n, hn⟩ : ∃ n, l.length = n + 1 := ⟨l.length - 1, by omega⟩
  have hcl : cleanLine l false = (l.take i, false) := by
    rw [cleanLine, hn, cleanLineAux]
    simp [h1, h2]
  exact ⟨hcl, by simp [commentStrip, commentStripGo, hcl]⟩

/-- C1 (witness for the amended theorem): the line ` x //y ` has its first
`//` at index 3 and no `/*`; the pipeline outputs `x`. -/
theorem commentStrip_slashslash_amended_witness :
    commentStrip [" x //y ".toList] = "x".toList :=
  ((commentStrip_slashslash_amended " x //y ".toList 3 (by decide)
      (by decide)).2).trans
    (by decide)

end Foundation
